import Mathlib

/- Verification of Dungeom.py, a de Bruijn graph based DNA sequence assembler.

   Modelling conventions, all taken from the Python source:
   * Python strings are modelled as lists of characters (`Str`); the Python
     slice `s[i:j]` (with `0 ≤ i ≤ j`) clamps at the ends and never raises,
     exactly like `(s.drop i).take (j - i)`.
   * The frequency dictionary `freq_dict`, whose key set is always the node
     list, is modelled as a total function `Str → Int` that is only ever read
     and written at keys belonging to the node list; `sum(freq_dict.values())`
     is the sum of the function over the node list.
   * The mutating recursion of `find_tour` (a Python `for` loop over a list
     that is being mutated, with a recursive call after each removal) is
     modelled by explicit state passing: the loop iterator keeps a counter
     `i`, reads the live list at position `i` when `i` is still in range, and
     `list.remove(x)` deletes the first occurrence equal to `x`.  A fuel
     argument makes the recursion structural; every general theorem is
     conditioned on the call returning a result.
   * `random.shuffle` is modelled by an explicit argument producing the
     permutation of the edge tail used by one retry of the outer loop. -/

namespace Dungeom

/-- Python strings, as lists of characters. -/
abbrev Str : Type := List Char

/-- An edge of the de Bruijn graph: an ordered pair of k-mers. -/
abbrev Edge : Type := Str × Str

/-- Python slice `s[i:j]` for `0 ≤ i ≤ j`: clamps at both ends, never raises. -/
def pySlice (s : Str) (i j : Nat) : Str := (s.drop i).take (j - i)

/-- The edge list built by `de_bruijn_convert`: one edge
`(str[i:i+k], str[i+1:i+k+1])` per offset `i` in `range(len(str) - k)`,
appended in offset order. -/
def de_bruijn_edges (s : Str) (k : Nat) : List Edge :=
  (List.range (s.length - k)).map
    (fun i => (pySlice s i (i + k), pySlice s (i + 1) (i + k + 1)))

/-- Python `set.add`, on a set represented as a duplicate-free list. -/
def setInsert (l : List Str) (x : Str) : List Str := if x ∈ l then l else l ++ [x]

/-- The node set built by `de_bruijn_convert`: in the same loop, each offset
adds the edge's two k-mers to the set. -/
def de_bruijn_nodes (s : Str) (k : Nat) : List Str :=
  (List.range (s.length - k)).foldl
    (fun acc i =>
      setInsert (setInsert acc (pySlice s i (i + k))) (pySlice s (i + 1) (i + k + 1)))
    []

/-- `de_bruijn_convert(str, k)` returns the pair `(edges, nodes)`. -/
def de_bruijn_convert (s : Str) (k : Nat) : List Edge × List Str :=
  (de_bruijn_edges s k, de_bruijn_nodes s k)

/-- `dictionary_of_node_edge_frequencies(edges, nodes)`: for every node, the
number of edges `(a, b)` with `node == a or node == b` — each edge counted at
most once per node, even when `a == b == node`.  Keys outside the node list do
not exist in the Python dict; the model returns 0 there and is never read at
such keys. -/
def dictionary_of_node_edge_frequencies (edges : List Edge) (nodes : List Str) :
    Str → Int :=
  fun node =>
    if node ∈ nodes then
      (edges.countP (fun e => node == e.1 || node == e.2) : Int)
    else 0

/-- `shuffled_edges(graph)`: removes the first element, shuffles the rest (the
shuffle is the explicit argument `sh`), and reinserts the first element at
position 0.  On an empty list the Python code faults (`first_edge` is never
bound), modelled as `none`. -/
def shuffled_edges (sh : List Edge → List Edge) (graph : List Edge) :
    Option (List Edge) :=
  match graph with
  | [] => none
  | e :: rest => some (e :: sh rest)

/-- The mutable state threaded through `find_tour`: the working edge list, the
frequency dictionary and the tour accumulator. -/
structure TourState where
  edges : List Edge
  freq : Str → Int
  tour : List Str

/-- Python `freq_dict[x] -= 1`. -/
def decKey (f : Str → Int) (x : Str) : Str → Int :=
  fun n => if n = x then f n - 1 else f n

/-- Python `sum(freq_dict.values())`: the dict keys are exactly `nodes`. -/
def freqSum (nodes : List Str) (f : Str → Int) : Int := (nodes.map f).sum

/-- Python `Edges.remove(x)`: delete the first occurrence equal to `x`. -/
def removeFirstEdge : List Edge → Edge → List Edge
  | [], _ => []
  | y :: ys, x => if y = x then ys else y :: removeFirstEdge ys x

/-- `find_tour(current, Edges, tour, kmer_dict)`.  The Python `for (a,b) in
Edges` loop keeps a counter `i`; each step reads the live list at position `i`
(when still in range) and advances the counter, so removing elements shifts
later elements under the scan.  On a match the edge is removed, both endpoint
counts are decremented, and the function recurses into the other endpoint
before the scan continues.  After the scan, `current` is prepended to the
tour.  `fuel` only makes the recursion structural. -/
def find_tour : Nat → Str → Nat → TourState → Option TourState
  | 0, _, _, _ => none
  | fuel + 1, current, i, st =>
    if i < st.edges.length then
      let e := st.edges.getD i ([], [])
      if e.1 = current then
        (find_tour fuel e.2 0
            ⟨removeFirstEdge st.edges e, decKey (decKey st.freq e.1) e.2, st.tour⟩).bind
          (find_tour fuel current (i + 1))
      else find_tour fuel current (i + 1) st
    else some ⟨st.edges, st.freq, current :: st.tour⟩

/-- Fuel amply sufficient for one full traversal attempt over `n` edges. -/
def attemptFuel (n : Nat) : Nat := (n + 2) * (n + 2)

/-- One iteration of the body of the `while` loop of `find_eulerian_tour`:
given the (already shuffled) edge list `order`, build the frequency dictionary
from it and the node set, and run `find_tour(order[0][0], order, [], freq)`.
On an empty order the Python indexing `graph[0][0]` faults, modelled as
`none`. -/
def attempt (s : Str) (k : Nat) (order : List Edge) : Option TourState :=
  match order with
  | [] => none
  | e :: _ =>
    find_tour (attemptFuel order.length) e.1 0
      ⟨order, dictionary_of_node_edge_frequencies order (de_bruijn_nodes s k), []⟩

/-- `find_eulerian_tour`: the retry loop.  Each retry rebuilds the graph from
scratch, shuffles it (with that retry's shuffle, taken from the list `shs` of
shuffles, one per retry), recomputes the frequency dictionary, and runs
`find_tour`; the loop stops and returns the tour as soon as
`sum(freq_dict.values()) == 0`.  Exhausting the list of shuffles models an
unfinished infinite loop (`none`). -/
def find_eulerian_tour (s : Str) (k : Nat) :
    List (List Edge → List Edge) → Option (List Str)
  | [] => none
  | sh :: rest =>
    match shuffled_edges sh (de_bruijn_edges s k) with
    | none => none
    | some order =>
      match attempt s k order with
      | none => none
      | some st =>
        if freqSum (de_bruijn_nodes s k) st.freq = 0 then some st.tour
        else find_eulerian_tour s k rest

/-- The accumulating loop of `eulerian_tour_to_superstring` after the first
word: `superstring += word[-1]` faults on an empty word (modelled `none`). -/
def appendLasts : Str → List Str → Option Str
  | acc, [] => some acc
  | acc, w :: ws =>
    match w.getLast? with
    | none => none
    | some c => appendLasts (acc ++ [c]) ws

/-- `eulerian_tour_to_superstring(graph)`: the first word in full, then the
last character of every later word. -/
def eulerian_tour_to_superstring : List Str → Option Str
  | [] => some []
  | w :: ws => appendLasts w ws

/-- The verdict printed by the main program: `assembled_seq == seq`. -/
def identical (assembled original : Str) : Bool := assembled == original

/- Concrete runs used by the counterexamples and witnesses below. -/

/-- The sequence "AA". -/
def seqAA : Str := ['A', 'A']

/-- The traversal attempt of "AA" with k = 1 (a single self-loop edge). -/
def c3run : Option TourState := attempt seqAA 1 (de_bruijn_edges seqAA 1)

/-- Two edges leaving node "A"; the second is skipped by the mutated scan. -/
def c4edges : List Edge := [(['A'], ['T']), (['A'], ['C'])]

/-- The nodes of `c4edges`. -/
def c4nodes : List Str := [['A'], ['T'], ['C']]

/-- The frequency dictionary of `c4edges`. -/
def c4dict : Str → Int := dictionary_of_node_edge_frequencies c4edges c4nodes

/-- Running `find_tour` at node "A" over `c4edges`. -/
def c4run : Option TourState := find_tour 8 ['A'] 0 ⟨c4edges, c4dict, []⟩

/-- The frequency dictionary after the single consumption in `c4run`. -/
def c4freq : Str → Int := decKey (decKey c4dict ['A']) ['T']

/-- The state in which `c4run` ends: edge ("A","C") not consumed. -/
def c4final : TourState := ⟨[(['A'], ['C'])], c4freq, [['A'], ['T']]⟩

/-- The sequence "ATACAGA": its graph has two loops `A-T-A` and `A-C-A` and
`A-G-A` reachable in either order from the start node "A". -/
def seqC1 : Str := ['A', 'T', 'A', 'C', 'A', 'G', 'A']

/-- One realizable shuffled order of the edges of "ATACAGA" with k = 1: the
first edge is kept in place and the tail is rotated by 3 (a permutation). -/
def orderC1 : List Edge :=
  [(['A'], ['T']), (['A'], ['G']), (['G'], ['A']), (['T'], ['A']),
   (['A'], ['C']), (['C'], ['A'])]

/-- Successive double decrements, one per consumed edge `(a, b)`. -/
def dK (f : Str → Int) (a b : Str) : Str → Int := decKey (decKey f a) b

/-- The frequency dictionary the divergent run of "ATACAGA" starts from. -/
def c1cBase : Str → Int :=
  dictionary_of_node_edge_frequencies orderC1 (de_bruijn_nodes seqC1 1)

/-- The frequency dictionary after the divergent run consumed, in order,
(A,T), (T,A), (A,G), (G,A), (A,C), (C,A). -/
def c1cFreq : Str → Int :=
  dK (dK (dK (dK (dK (dK c1cBase ['A'] ['T']) ['T'] ['A']) ['A'] ['G'])
    ['G'] ['A']) ['A'] ['C']) ['C'] ['A']

/-- The final state of the divergent run of "ATACAGA" under `orderC1`. -/
def c1cState : TourState :=
  ⟨[], c1cFreq, [['A'], ['T'], ['A'], ['G'], ['A'], ['C'], ['A']]⟩

/-- A three-edge graph used to exercise `shuffled_edges`. -/
def g6 : List Edge := [(['A'], ['T']), (['T'], ['A']), (['A'], ['C'])]

/- Helper lemmas. -/

lemma removeFirstEdge_sublist (l : List Edge) (x : Edge) :
    (removeFirstEdge l x).Sublist l := by
  induction l with
  | nil => simp [removeFirstEdge]
  | cons y ys ih =>
    by_cases h : y = x
    · simp [removeFirstEdge, h]
    · simpa [removeFirstEdge, h] using ih.cons₂ y

lemma removeFirstEdge_length (l : List Edge) (x : Edge) (hx : x ∈ l) :
    (removeFirstEdge l x).length + 1 = l.length := by
  induction l with
  | nil => cases hx
  | cons y ys ih =>
    by_cases h : y = x
    · simp [removeFirstEdge, h]
    · rcases List.mem_cons.mp hx with h' | h'
      · exact absurd h'.symm h
      · simp [removeFirstEdge, h, ih h']

lemma freqSum_decKey (nodes : List Str) (hnd : nodes.Nodup) (f : Str → Int)
    (x : Str) (hx : x ∈ nodes) :
    freqSum nodes (decKey f x) = freqSum nodes f - 1 := by
  induction nodes with
  | nil => cases hx
  | cons n ns ih =>
    rw [List.nodup_cons] at hnd
    rcases List.mem_cons.mp hx with rfl | hx'
    · have htail : ∀ m ∈ ns, decKey f x m = f m := by
        intro m hm
        have : m ≠ x := fun hmx => hnd.1 (hmx ▸ hm)
        simp [decKey, this]
      simp only [freqSum, List.map_cons, List.sum_cons, List.map_congr_left htail]
      simp [decKey]
      ring
    · have hn : n ≠ x := fun hnx => hnd.1 (hnx ▸ hx')
      simp only [freqSum, List.map_cons, List.sum_cons] at ih ⊢
      rw [ih hnd.2 hx']
      simp [decKey, hn]
      ring

/-- Structural facts about one call of `find_tour`: the working edge list only
shrinks (as a sublist), and the returned tour has `current` prepended on top
of everything accumulated during the call. -/
lemma find_tour_sublist_tour :
    ∀ (fuel : Nat) (current : Str) (i : Nat) (st st' : TourState),
      find_tour fuel current i st = some st' →
      st'.edges.Sublist st.edges ∧ ∃ t, st'.tour = current :: t := by
  intro fuel
  induction fuel with
  | zero => intro current i st st' h; simp [find_tour] at h
  | succ fuel ih =>
    intro current i st st' h
    rw [find_tour] at h
    by_cases hi : i < st.edges.length
    · rw [if_pos hi] at h
      simp only [] at h
      by_cases hcur : (st.edges.getD i ([], [])).1 = current
      · rw [if_pos hcur] at h
        cases hinner : find_tour fuel (st.edges.getD i ([], [])).2 0
            ⟨removeFirstEdge st.edges (st.edges.getD i ([], [])),
             decKey (decKey st.freq (st.edges.getD i ([], [])).1)
               (st.edges.getD i ([], [])).2, st.tour⟩ with
        | none => rw [hinner] at h; exact Option.noConfusion h
        | some st2 =>
          rw [hinner] at h
          simp only [Option.some_bind] at h
          obtain ⟨h2sub, -⟩ := ih _ 0 _ st2 hinner
          obtain ⟨hsub, ht⟩ := ih current (i + 1) st2 st' h
          exact ⟨hsub.trans (h2sub.trans (removeFirstEdge_sublist _ _)), ht⟩
      · rw [if_neg hcur] at h
        exact ih current (i + 1) st st' h
    · rw [if_neg hi] at h
      obtain rfl := Option.some.inj h
      exact ⟨List.Sublist.refl _, ⟨st.tour, rfl⟩⟩

/-- Bookkeeping invariant of one call of `find_tour`: edge endpoints stay
inside the node list, the edge list only shrinks, and the sum of the
frequency dictionary drops by exactly 2 for each consumed edge. -/
lemma find_tour_sum (nodes : List Str) (hnd : nodes.Nodup) :
    ∀ (fuel : Nat) (current : Str) (i : Nat) (st st' : TourState),
      (∀ e ∈ st.edges, e.1 ∈ nodes ∧ e.2 ∈ nodes) →
      find_tour fuel current i st = some st' →
      (∀ e ∈ st'.edges, e.1 ∈ nodes ∧ e.2 ∈ nodes) ∧
      st'.edges.length ≤ st.edges.length ∧
      freqSum nodes st'.freq =
        freqSum nodes st.freq - 2 * ((st.edges.length : Int) - (st'.edges.length : Int)) := by
  intro fuel
  induction fuel with
  | zero => intro current i st st' _ h; simp [find_tour] at h
  | succ fuel ih =>
    intro current i st st' hin h
    rw [find_tour] at h
    by_cases hi : i < st.edges.length
    · rw [if_pos hi] at h
      simp only [] at h
      by_cases hcur : (st.edges.getD i ([], [])).1 = current
      · rw [if_pos hcur] at h
        have hgetd : st.edges.getD i ([], []) = st.edges[i] := by simp [List.getD, hi]
        have hmem : st.edges.getD i ([], []) ∈ st.edges := by
          rw [hgetd]; exact List.getElem_mem ..
        obtain ⟨h1, h2⟩ := hin _ hmem
        cases hinner : find_tour fuel (st.edges.getD i ([], [])).2 0
            ⟨removeFirstEdge st.edges (st.edges.getD i ([], [])),
             decKey (decKey st.freq (st.edges.getD i ([], [])).1)
               (st.edges.getD i ([], [])).2, st.tour⟩ with
        | none => rw [hinner] at h; exact Option.noConfusion h
        | some st2 =>
          rw [hinner] at h
          simp only [Option.some_bind] at h
          have hin1 : ∀ e ∈ removeFirstEdge st.edges (st.edges.getD i ([], [])),
              e.1 ∈ nodes ∧ e.2 ∈ nodes := fun e he =>
            hin e ((removeFirstEdge_sublist ..).subset he)
          obtain ⟨hin2, hlen2, hsum2⟩ := ih _ 0 _ st2 hin1 hinner
          simp only [] at hlen2 hsum2
          obtain ⟨hin', hlen', hsum'⟩ := ih current (i + 1) st2 st' hin2 h
          have hrl : (removeFirstEdge st.edges (st.edges.getD i ([], []))).length + 1
              = st.edges.length := removeFirstEdge_length _ _ hmem
          have hdec : freqSum nodes
                (decKey (decKey st.freq (st.edges.getD i ([], [])).1)
                  (st.edges.getD i ([], [])).2)
              = freqSum nodes st.freq - 2 := by
            rw [freqSum_decKey nodes hnd _ _ h2, freqSum_decKey nodes hnd _ _ h1]
            ring
          simp only [hdec] at hsum2
          refine ⟨hin', by omega, ?_⟩
          rw [hsum', hsum2]
          have hc : ((removeFirstEdge st.edges (st.edges.getD i ([], []))).length : Int) + 1
              = (st.edges.length : Int) := by exact_mod_cast congrArg Nat.cast hrl
          push_cast at hc ⊢
          linarith
      · rw [if_neg hcur] at h
        exact ih current (i + 1) st st' hin h
    · rw [if_neg hi] at h
      obtain rfl := Option.some.inj h
      exact ⟨hin, le_refl _, by simp⟩

/-- Whatever `appendLasts` returns extends its accumulator. -/
lemma appendLasts_decomp :
    ∀ (ws : List Str) (acc r : Str), appendLasts acc ws = some r → ∃ u, r = acc ++ u := by
  intro ws
  induction ws with
  | nil =>
    intro acc r h
    rw [appendLasts] at h
    exact ⟨[], by simp [(Option.some.inj h).symm]⟩
  | cons w ws ih =>
    intro acc r h
    rw [appendLasts] at h
    split at h
    · exact Option.noConfusion h
    · next c hc =>
      obtain ⟨u, hu⟩ := ih (acc ++ [c]) r h
      exact ⟨c :: u, by simp [hu]⟩

/-- On words that are all non-empty, `appendLasts` succeeds and appends the
last character of each word. -/
lemma appendLasts_map :
    ∀ (ws : List Str) (acc : Str), (∀ u ∈ ws, u ≠ []) →
      appendLasts acc ws = some (acc ++ ws.map (fun u => u.getLastD 'A')) := by
  intro ws
  induction ws with
  | nil => intro acc _; simp [appendLasts]
  | cons w ws ih =>
    intro acc hne
    have hw : w ≠ [] := hne w (List.mem_cons_self ..)
    have hl : w.getLast? = some (w.getLast hw) := List.getLast?_eq_getLast w hw
    rw [appendLasts, hl]
    show appendLasts (acc ++ [w.getLast hw]) ws
        = some (acc ++ (w :: ws).map (fun u => u.getLastD 'A'))
    rw [ih (acc ++ [w.getLast hw]) (fun u hu => hne u (List.mem_cons_of_mem _ hu))]
    simp [List.getLastD_eq_getLast?, hl]

/-- Dropping the head of a list does not change its last element. -/
lemma getLast?_drop_one (s : Str) (h : s.drop 1 ≠ []) :
    (s.drop 1).getLast? = s.getLast? := by
  cases s with
  | nil => simp at h
  | cons a t =>
    cases t with
    | nil => simp at h
    | cons b t' => exact List.getLast?_cons_cons.symm

/-- A duplicate-free list containing two distinct elements satisfying `p`
has `countP p` at least 2. -/
lemma two_le_countP {α : Type} (p : α → Bool) :
    ∀ (l : List α), l.Nodup → ∀ a b, a ∈ l → b ∈ l → a ≠ b →
      p a → p b → 2 ≤ l.countP p := by
  intro l
  induction l with
  | nil => intro _ a b ha _ _ _ _; cases ha
  | cons x t ih =>
    intro hnd a b ha hb hab hpa hpb
    rw [List.nodup_cons] at hnd
    rw [List.countP_cons]
    rcases List.mem_cons.mp ha with rfl | ha'
    · have hb' : b ∈ t := by
        rcases List.mem_cons.mp hb with rfl | hb'
        · exact absurd rfl hab
        · exact hb'
      have h1 : 0 < t.countP p := List.countP_pos_iff.mpr ⟨b, hb', hpb⟩
      rw [if_pos hpa]
      omega
    · rcases List.mem_cons.mp hb with rfl | hb'
      · have h1 : 0 < t.countP p := List.countP_pos_iff.mpr ⟨a, ha', hpa⟩
        rw [if_pos hpb]
        omega
      · have h2 := ih hnd.2 a b ha' hb' hab hpa hpb
        omega

/-- The prefix k-mer of an edge is determined by the edge's (k+1)-mer window. -/
lemma pySlice_window_take (s : Str) (i k : Nat) :
    pySlice s i (i + k) = (pySlice s i (i + k + 1)).take k := by
  have h1 : i + k - i = k := by omega
  have h2 : i + k + 1 - i = k + 1 := by omega
  have h3 : min k (k + 1) = k := by omega
  simp [pySlice, h1, h2, List.take_take, h3]

/-- The suffix k-mer of an edge is determined by the edge's (k+1)-mer window. -/
lemma pySlice_window_drop (s : Str) (i k : Nat) :
    pySlice s (i + 1) (i + k + 1) = (pySlice s i (i + k + 1)).drop 1 := by
  have h2 : i + k + 1 - i = k + 1 := by omega
  have h4 : i + k + 1 - (i + 1) = k := by omega
  simp [pySlice, h2, h4, List.drop_take, List.drop_drop]

/-- Equal (k+1)-mer windows give equal edges. -/
lemma edge_eq_of_window_eq (s : Str) (k i j : Nat)
    (hw : pySlice s i (i + k + 1) = pySlice s j (j + k + 1)) :
    (pySlice s i (i + k), pySlice s (i + 1) (i + k + 1))
      = (pySlice s j (j + k), pySlice s (j + 1) (j + k + 1)) := by
  rw [pySlice_window_take s i k, pySlice_window_take s j k,
      pySlice_window_drop s i k, pySlice_window_drop s j k, hw]

/- Claim theorems. -/

/-- C1 (amended): whenever a traversal attempt of the pipeline returns and
its tour is folded into a superstring, that superstring begins with the
original sequence's first k-mer (the start node pinned by the fixed first
edge); it need NOT equal the input sequence and can differ between runs —
see the counterexample. -/
theorem c1_amended_recon_first_kmer (s : Str) (k : Nat) (order : List Edge)
    (st' : TourState) (r : Str) (_hk1 : 1 ≤ k) (hkL : k < s.length)
    (hhead : order.head? = (de_bruijn_edges s k).head?)
    (hatt : attempt s k order = some st')
    (hrec : eulerian_tour_to_superstring st'.tour = some r) :
    r.take k = s.take k := by
  have hn : 0 < s.length - k := by omega
  obtain ⟨m, hm⟩ := Nat.exists_eq_succ_of_ne_zero (Nat.pos_iff_ne_zero.mp hn)
  have hbe : (de_bruijn_edges s k).head?
      = some (pySlice s 0 (0 + k), pySlice s (0 + 1) (0 + k + 1)) := by
    rw [de_bruijn_edges, hm, List.range_succ_eq_map]
    simp
  rw [hbe] at hhead
  cases order with
  | nil => exact Option.noConfusion hhead
  | cons e rest =>
    have he0 : e = (pySlice s 0 (0 + k), pySlice s (0 + 1) (0 + k + 1)) :=
      Option.some.inj hhead
    rw [attempt] at hatt
    obtain ⟨-, t, ht⟩ := find_tour_sublist_tour _ _ _ _ _ hatt
    rw [ht, eulerian_tour_to_superstring] at hrec
    obtain ⟨u, hu⟩ := appendLasts_decomp t e.1 r hrec
    have he1 : e.1 = s.take k := by rw [he0]; simp [pySlice]
    have hlen : (s.take k).length = k := by rw [List.length_take]; omega
    rw [hu, he1, List.take_append_eq_append_take, hlen, Nat.sub_self,
        List.take_zero, List.append_nil, List.take_take, Nat.min_self]

/-- C1 witness: the divergent run of "ATACAGA" with k = 1 under the order
`orderC1` satisfies every hypothesis of the amended theorem, and its
reconstruction "ATAGACA" indeed starts with the first 1-mer "A". -/
theorem c1_amended_witness :
    (['A', 'T', 'A', 'G', 'A', 'C', 'A'] : Str).take 1 = seqC1.take 1 :=
  c1_amended_recon_first_kmer seqC1 1 orderC1 c1cState
    ['A', 'T', 'A', 'G', 'A', 'C', 'A'] (by decide) (by decide) rfl rfl rfl

/-- C1 counterexample: for the valid input "ATACAGA" with k = 1, the retry
loop terminates under a realizable shuffle (first edge kept, tail rotated by
3 — a permutation of the tail) with a tour whose reconstruction is
"ATAGACA" ≠ "ATACAGA", so the Verifier reports `not identical`; under the
identity shuffle the same pipeline reconstructs "ATACAGA".  The claim that
every terminating run reconstructs the input (and that the reconstruction is
run-independent) is false. -/
theorem c1_counterexample_divergent_run :
    ((de_bruijn_edges seqC1 1).tail.rotate 3).Perm ((de_bruijn_edges seqC1 1).tail) ∧
    find_eulerian_tour seqC1 1 [fun l => l.rotate 3]
      = some [['A'], ['T'], ['A'], ['G'], ['A'], ['C'], ['A']] ∧
    eulerian_tour_to_superstring [['A'], ['T'], ['A'], ['G'], ['A'], ['C'], ['A']]
      = some ['A', 'T', 'A', 'G', 'A', 'C', 'A'] ∧
    identical ['A', 'T', 'A', 'G', 'A', 'C', 'A'] seqC1 = false ∧
    find_eulerian_tour seqC1 1 [id]
      = some [['A'], ['T'], ['A'], ['C'], ['A'], ['G'], ['A']] ∧
    eulerian_tour_to_superstring [['A'], ['T'], ['A'], ['C'], ['A'], ['G'], ['A']]
      = some seqC1 :=
  ⟨by decide, rfl, rfl, rfl, rfl, rfl⟩

/-- C2: REFUTED on the code (code bug).  The Degree Tracker counts a
self-loop edge ONCE for its node, not twice: the single self-loop edge
("A","A") of "AA" with k = 1 gives node "A" the value 1 (claim and spec say
2), and the three identical self-loop edges of "AAAA" with k = 1 give 3
(duplicates are indeed not collapsed, but the claimed per-self-loop
contribution of 2 would give 6).  `find_tour` decrements the entry twice per
self-loop, so this single counting makes the retry loop's success test
`sum == 0` unreachable on such inputs. -/
theorem c2_self_loop_counted_once :
    dictionary_of_node_edge_frequencies [(['A'], ['A'])] [['A']] ['A'] = 1 ∧
    dictionary_of_node_edge_frequencies (de_bruijn_edges ['A', 'A', 'A', 'A'] 1)
      (de_bruijn_nodes ['A', 'A', 'A', 'A'] 1) ['A'] = 3 :=
  ⟨rfl, rfl⟩

/-- C3: REFUTED on the code (code bug, same root cause as C2).  The degree
sum does drop by exactly 2 per consumed edge (see
`c4_amended_consumption`), but it does NOT equal 0 once every edge is
consumed when a self-loop is present: for "AA" with k = 1 the initial sum is
1, the attempt consumes the single edge (the working edge list ends empty),
the final sum is −1, and the retry loop's success test `sum == 0` therefore
never fires (the loop never returns). -/
theorem c3_sum_not_zero_on_full_consumption :
    freqSum (de_bruijn_nodes seqAA 1)
      (dictionary_of_node_edge_frequencies (de_bruijn_edges seqAA 1)
        (de_bruijn_nodes seqAA 1)) = 1 ∧
    (c3run.map fun st => st.edges) = some [] ∧
    (c3run.map fun st => freqSum (de_bruijn_nodes seqAA 1) st.freq) = some (-1) ∧
    find_eulerian_tour seqAA 1 [id] = none :=
  ⟨rfl, rfl, rfl, rfl⟩

/-- C4 (amended): when the recursive trail step returns, every edge it
consumed was removed from the working collection (the remaining edges form a
sublist of the entry edges) and each consumption decremented the degree
entries of both endpoints by one each, so the dictionary sum dropped by
exactly twice the number of consumed edges.  Because removal shifts indices
under the live scan, an edge whose origin equals `current` and that was
present at entry may remain unconsumed when the invocation returns — see the
counterexample. -/
theorem c4_amended_consumption (nodes : List Str) (fuel : Nat) (current : Str)
    (i : Nat) (st st' : TourState) (hnd : nodes.Nodup)
    (hin : ∀ e ∈ st.edges, e.1 ∈ nodes ∧ e.2 ∈ nodes)
    (h : find_tour fuel current i st = some st') :
    st'.edges.Sublist st.edges ∧
    freqSum nodes st'.freq =
      freqSum nodes st.freq
        - 2 * ((st.edges.length : Int) - (st'.edges.length : Int)) :=
  ⟨(find_tour_sublist_tour fuel current i st st' h).1,
   (find_tour_sum nodes hnd fuel current i st st' hin h).2.2⟩

/-- C4 witness: the amended theorem applied to the concrete run `c4run`. -/
theorem c4_amended_witness :
    c4final.edges.Sublist c4edges ∧
    freqSum c4nodes c4final.freq =
      freqSum c4nodes c4dict
        - 2 * ((c4edges.length : Int) - (c4final.edges.length : Int)) :=
  c4_amended_consumption c4nodes 8 ['A'] 0 ⟨c4edges, c4dict, []⟩ c4final
    (by decide) (by decide) rfl

/-- C4 counterexample: at node "A" with working edges [("A","T"), ("A","C")],
the recursive step consumes ("A","T"), recurses into "T" (which consumes
nothing), and its scan then ends — the edge ("A","C"), whose origin-side
element equals the current node "A" and which was present at entry, is still
in the working collection when the invocation returns. -/
theorem c4_counterexample_skipped_edge :
    (c4run.map fun st => st.edges) = some [(['A'], ['C'])] ∧
    (c4run.map fun st => st.tour) = some [['A'], ['T']] ∧
    ((['A'], ['C']) : Edge) ∈ c4edges ∧ ((['A'], ['C']) : Edge).1 = ['A'] :=
  ⟨rfl, rfl, by decide, rfl⟩

/-- C5: for every valid (sequence, k), the Graph Builder produces exactly
`length - k` edges; the edge at offset i is
`(s[i:i+k], s[i+1:i+k+1])`, so edges appear in sequence-traversal order; and
equal (k+1)-mer windows at two distinct offsets yield two separate equal
edge tuples (count at least 2 — no deduplication). -/
theorem c5_graph_builder_edges (s : Str) (k : Nat) (_hk1 : 1 ≤ k)
    (_hkL : k < s.length) :
    (de_bruijn_edges s k).length = s.length - k ∧
    (∀ i, i < s.length - k →
      (de_bruijn_edges s k)[i]? =
        some (pySlice s i (i + k), pySlice s (i + 1) (i + k + 1))) ∧
    (∀ i j, i < s.length - k → j < s.length - k → i ≠ j →
      pySlice s i (i + k + 1) = pySlice s j (j + k + 1) →
      2 ≤ (de_bruijn_edges s k).countP
        (fun e => e == (pySlice s i (i + k), pySlice s (i + 1) (i + k + 1)))) := by
  refine ⟨by simp [de_bruijn_edges], ?_, ?_⟩
  · intro i hi
    simp [de_bruijn_edges, List.getElem?_map, List.getElem?_range, hi]
  · intro i j hi hj hij hw
    rw [de_bruijn_edges, List.countP_map]
    refine two_le_countP _ (List.range (s.length - k)) (List.nodup_range ..) i j
      (List.mem_range.mpr hi) (List.mem_range.mpr hj) hij ?_ ?_
    · simp [Function.comp]
    · have hee := edge_eq_of_window_eq s k i j hw
      simp [Function.comp, hee.symm]

/-- C5 witness: "AAAA" with k = 1 — three edges, the edge at offset 0 is
("A","A"), and the equal windows at offsets 0 and 1 give a repeated,
non-deduplicated edge (count at least 2). -/
theorem c5_witness :
    (de_bruijn_edges ['A', 'A', 'A', 'A'] 1).length = 3 ∧
    (de_bruijn_edges ['A', 'A', 'A', 'A'] 1)[0]? = some (['A'], ['A']) ∧
    2 ≤ (de_bruijn_edges ['A', 'A', 'A', 'A'] 1).countP
      (fun e => e == (['A'], ['A'])) := by
  have h := c5_graph_builder_edges ['A', 'A', 'A', 'A'] 1 (by decide) (by decide)
  exact ⟨h.1, h.2.1 0 (by decide), h.2.2 0 1 (by decide) (by decide) (by decide) rfl⟩

/-- C6: for every non-empty edge list, the Edge Randomizer returns a list
that keeps the original first element in place and permutes the rest, hence
is a permutation of its input (same multiset) with the multiset of the
remaining elements unchanged.  The randomness of `random.shuffle` is the
argument `sh`; Python's shuffle always produces a permutation, which is the
hypothesis `hsh`. -/
theorem c6_randomizer_head_fixed (sh : List Edge → List Edge)
    (hsh : ∀ l, (sh l).Perm l) (graph : List Edge) (hne : graph ≠ []) :
    ∃ out, shuffled_edges sh graph = some out ∧ out.head? = graph.head? ∧
      out.Perm graph ∧ out.tail.Perm graph.tail := by
  cases graph with
  | nil => exact absurd rfl hne
  | cons e rest =>
    exact ⟨e :: sh rest, rfl, rfl, List.Perm.cons e (hsh rest), hsh rest⟩

/-- C6 witness: the theorem applied to a concrete three-edge list with the
(permuting) reversal as the shuffle. -/
theorem c6_witness :
    shuffled_edges List.reverse g6
      = some [(['A'], ['T']), (['A'], ['C']), (['T'], ['A'])] ∧
    [(['A'], ['T']), (['A'], ['C']), (['T'], ['A'])].Perm g6 := by
  obtain ⟨out, h1, h2, h3, h4⟩ :=
    c6_randomizer_head_fixed List.reverse (fun l => l.reverse_perm) g6 (by decide)
  have hc : shuffled_edges List.reverse g6
      = some [(['A'], ['T']), (['A'], ['C']), (['T'], ['A'])] := rfl
  refine ⟨hc, ?_⟩
  have hoc : out = [(['A'], ['T']), (['A'], ['C']), (['T'], ['A'])] := by
    rw [h1] at hc
    exact Option.some.inj hc
  rw [← hoc]
  exact h3

/-- C7: for every non-empty Tour of uniform-length k-mers (k ≥ 1), the
Superstring Reconstructor deterministically returns the first node verbatim
followed by the last symbol of each subsequent node, with no failure. -/
theorem c7_superstring_uniform_kmers (k : Nat) (w : Str) (ws : List Str)
    (hk : 1 ≤ k) (hw : w.length = k) (hws : ∀ u ∈ ws, u.length = k) :
    eulerian_tour_to_superstring (w :: ws)
      = some (w ++ ws.map (fun u => u.getLastD 'A')) := by
  rw [eulerian_tour_to_superstring]
  refine appendLasts_map ws w ?_
  intro u hu h0
  have hlu := hws u hu
  rw [h0] at hlu
  simp at hlu
  omega

/-- C7 witness: the 2-mer tour ["AT","TG","GC"] folds to "ATGC". -/
theorem c7_witness :
    eulerian_tour_to_superstring [['A', 'T'], ['T', 'G'], ['G', 'C']]
      = some ['A', 'T', 'G', 'C'] := by
  have h := c7_superstring_uniform_kmers 2 ['A', 'T'] [['T', 'G'], ['G', 'C']]
    (by decide) (by decide) (by decide)
  rw [h]
  rfl

/-- C8 (amended): with the maximal k = length − 1 the Graph Builder produces
exactly one edge, namely (first (L−1)-mer, last (L−1)-mer); it produces two
nodes when those two k-mers differ but only ONE node when they coincide
(e.g. "AA" — see the counterexample); and folding the two-node tour back
yields the input sequence. -/
theorem c8_amended_maximal_k (s : Str) (hL : 2 ≤ s.length) :
    de_bruijn_edges s (s.length - 1) = [(s.take (s.length - 1), s.drop 1)] ∧
    (de_bruijn_nodes s (s.length - 1)).length
      = (if s.take (s.length - 1) = s.drop 1 then 1 else 2) ∧
    eulerian_tour_to_superstring [s.take (s.length - 1), s.drop 1] = some s := by
  have h1 : s.length - (s.length - 1) = 1 := by omega
  have hp : pySlice s 0 (0 + (s.length - 1)) = s.take (s.length - 1) := by
    simp [pySlice]
  have hq : pySlice s (0 + 1) (0 + (s.length - 1) + 1) = s.drop 1 := by
    have h4 : 0 + (s.length - 1) + 1 - (0 + 1) = s.length - 1 := by omega
    rw [pySlice, h4]
    exact List.take_of_length_le (by simp)
  refine ⟨?_, ?_, ?_⟩
  · rw [de_bruijn_edges, h1, (by decide : List.range 1 = [0]), List.map_singleton,
        hp, hq]
  · rw [de_bruijn_nodes, h1, (by decide : List.range 1 = [0])]
    simp only [List.foldl_cons, List.foldl_nil, hp, hq]
    have hx : setInsert [] (s.take (s.length - 1)) = [s.take (s.length - 1)] := by
      rw [setInsert, if_neg (List.not_mem_nil _), List.nil_append]
    rw [hx]
    by_cases hpq : s.take (s.length - 1) = s.drop 1
    · rw [setInsert, if_pos (List.mem_singleton.mpr hpq.symm), if_pos hpq]
      rfl
    · rw [setInsert,
          if_neg (fun hmem => hpq (List.mem_singleton.mp hmem).symm), if_neg hpq]
      rfl
  · have hq' : s.drop 1 ≠ [] := by
      intro h0
      have hl0 := congrArg List.length h0
      simp at hl0
      omega
    have hs : s ≠ [] := by intro h0; rw [h0] at hL; simp at hL
    have hlast2 : (s.drop 1).getLast? = some (s.getLast hs) :=
      (getLast?_drop_one s hq').trans (List.getLast?_eq_getLast s hs)
    rw [eulerian_tour_to_superstring, appendLasts, hlast2]
    show appendLasts (s.take (s.length - 1) ++ [s.getLast hs]) [] = some s
    rw [appendLasts, ← List.dropLast_eq_take, List.dropLast_append_getLast hs]

/-- C8 witness: the theorem applied to "AT" (k = 1): one edge, two nodes,
reconstruction "AT". -/
theorem c8_witness :
    de_bruijn_edges ['A', 'T'] 1 = [(['A'], ['T'])] ∧
    (de_bruijn_nodes ['A', 'T'] 1).length = 2 ∧
    eulerian_tour_to_superstring [['A'], ['T']] = some ['A', 'T'] := by
  have h := c8_amended_maximal_k ['A', 'T'] (by decide)
  refine ⟨h.1, ?_, h.2.2⟩
  have h2 := h.2.1
  rw [if_neg (by decide)] at h2
  exact h2

/-- C8 counterexample: "AA" is a valid sequence and k = 1 is its maximal k,
yet the Graph Builder produces only ONE node (the two k-mers coincide), not
the two nodes the claim asserts; the single edge is the self-loop
("A","A"). -/
theorem c8_counterexample_single_node :
    (de_bruijn_nodes ['A', 'A'] 1).length = 1 ∧
    de_bruijn_edges ['A', 'A'] 1 = [(['A'], ['A'])] :=
  ⟨rfl, rfl⟩

/-- C9 (amended): invoked with k ≥ length, the Graph Builder does NOT
address out of range — `range(len(str) - k)` is empty, the loop body never
runs, and the function returns the well-formed pair of an empty edge list
and an empty node set. -/
theorem c9_amended_empty_result (s : Str) (k : Nat) (h : s.length ≤ k) :
    de_bruijn_convert s k = ([], []) := by
  have h0 : s.length - k = 0 := Nat.sub_eq_zero_of_le h
  simp [de_bruijn_convert, de_bruijn_edges, de_bruijn_nodes, h0]

/-- C9 witness: the theorem applied at the boundary k = length. -/
theorem c9_witness : de_bruijn_convert ['A', 'T', 'G'] 3 = ([], []) :=
  c9_amended_empty_result ['A', 'T', 'G'] 3 (by decide)

/-- C9 counterexample: with k = 5 > 3 = length("ATG") the unguarded call
returns a well-formed (empty) result rather than failing — Python slicing
clamps and the empty `range` means no index is ever formed, contradicting
the claim that the operation must fail. -/
theorem c9_counterexample_well_formed_result :
    de_bruijn_convert ['A', 'T', 'G'] 5 = ([], []) ∧
    (de_bruijn_edges ['A', 'T', 'G'] 5).length = 0 :=
  ⟨rfl, rfl⟩

/-- C10 (amended): the Superstring Reconstructor returns the empty string on
the empty Tour and imposes no uniform-length requirement, but it is NOT
total: every element after the first must be non-empty (the `word[-1]`
access fails on an empty later word — see the counterexample); the first
element itself may be arbitrary. -/
theorem c10_amended_totality :
    eulerian_tour_to_superstring ([] : List Str) = some [] ∧
    ∀ (w : Str) (ws : List Str), (∀ u ∈ ws, u ≠ []) →
      eulerian_tour_to_superstring (w :: ws)
        = some (w ++ ws.map (fun u => u.getLastD 'A')) := by
  refine ⟨rfl, ?_⟩
  intro w ws h
  rw [eulerian_tour_to_superstring]
  exact appendLasts_map ws w h

/-- C10 witness: a tour with an empty FIRST element still succeeds, and the
empty tour returns the empty string. -/
theorem c10_witness :
    eulerian_tour_to_superstring [[], ['T', 'G']] = some ['G'] := by
  have h := c10_amended_totality.2 [] [['T', 'G']] (by decide)
  rw [h]
  rfl

/-- C10 counterexample: a tour containing an empty element after the first
makes the Reconstructor fail (`word[-1]` raises IndexError, modelled as
`none`), refuting the claimed totality over all lists of strings. -/
theorem c10_counterexample_empty_element :
    eulerian_tour_to_superstring [['A'], []] = none :=
  rfl

end Dungeom
